import Mathlib

/-!
Shallow embedding of `src/generate_pea_protein_prospects.py` and proofs of
the specification's claims about it.

Strings are modelled as `List Char`.  Python string and regex operations are
modelled on the ASCII fragment the program actually exercises: whitespace is
space, tab, LF, CR, VT, FF (the set matched by `str.strip()` and `\s` on the
program's inputs); `str.lower`, `str.isalpha` and `\w` are modelled on ASCII.
The external generative service is an opaque collaborator; the loop is
modelled relative to an `oracle : Nat → Str` giving the raw text returned by
the n-th call.
-/

namespace PeaProspects

/-- Strings as lists of characters. -/
abbrev Str := List Char

/-- A Lean string literal viewed in the `List Char` model. -/
def str (s : String) : Str := s.data

/-- ASCII whitespace: the characters stripped by Python `str.strip()` and
matched by `\s`. -/
def isWs (c : Char) : Bool :=
  c = ' ' || c = '\t' || c = '\n' || c = '\r' || c = '\x0b' || c = '\x0c'

/-- Python `s.strip()`. -/
def stripWs (s : Str) : Str :=
  ((s.dropWhile isWs).reverse.dropWhile isWs).reverse

/-- Python `s.strip('"')`: remove all leading and trailing double quotes. -/
def stripQuotes (s : Str) : Str :=
  ((s.dropWhile (fun c => c = '"')).reverse.dropWhile (fun c => c = '"')).reverse

/-- Python `re.sub(r"\s+", " ", s)`: collapse each maximal whitespace run to
a single space. -/
def collapseWs (s : Str) : Str :=
  (s.foldl
    (fun acc c =>
      if isWs c then (if acc.2 then acc else (' ' :: acc.1, true))
      else (c :: acc.1, false))
    (([] : Str), false)).1.reverse

/-- ASCII lower-casing, Python `s.lower()` on the inputs at issue. -/
def lower (s : Str) : Str := s.map Char.toLower

/-- `normalize_name` from the source:
`re.sub(r"\s+", " ", name.strip().lower())`. -/
def normalize_name (name : Str) : Str :=
  collapseWs (lower (stripWs name))

/-- Python `s.split()`: maximal whitespace-separated tokens, no empties. -/
def words (s : Str) : List Str :=
  (s.foldr
    (fun c acc =>
      if isWs c then
        match acc with
        | [] :: _ => acc
        | _ => [] :: acc
      else
        match acc with
        | t :: ts => (c :: t) :: ts
        | [] => [[c]])
    ([] : List Str)).filter (fun t => t ≠ [])

/-- Python `str.isalpha()` (ASCII model): nonempty and all alphabetic. -/
def py_isalpha (s : Str) : Bool := !s.isEmpty && s.all Char.isAlpha

/-- A `\w` word character (ASCII model): alphanumeric or underscore. -/
def isWordChar (c : Char) : Bool := c.isAlphanum || c = '_'

/-- Python `pat in s` / `re.search` of a literal pattern: `pat` occurs as a
contiguous substring of `s`. -/
def containsSub (pat : Str) : Str → Bool
  | [] => pat = []
  | c :: rest => pat.isPrefixOf (c :: rest) || containsSub pat rest

/-- Python `re.search(pat + r"\b", s)` for a literal pattern ending in a word
character: some occurrence of `pat` in `s` is followed by a non-word
character or by the end of the string. -/
def tldBoundary (pat : Str) : Str → Bool
  | [] => false
  | c :: rest =>
    (pat.isPrefixOf (c :: rest) &&
      (match (c :: rest).drop pat.length with
       | [] => true
       | d :: _ => !isWordChar d)) || tldBoundary pat rest

/-- The `bad_patterns` loop body of `looks_like_company`: true iff some
pattern of `[r"^siehe", r"^n/a$", r"^keine", r"^unbekannt", r"^sample",
r"http", r"\.com\b", r"\.de\b"]` matches the name case-insensitively
(`re.search` with `re.I`; anchors are modelled on the lower-cased name). -/
def bad_patterns_match (name : Str) : Bool :=
  (str "siehe").isPrefixOf (lower name) ||
  lower name = str "n/a" ||
  (str "keine").isPrefixOf (lower name) ||
  (str "unbekannt").isPrefixOf (lower name) ||
  (str "sample").isPrefixOf (lower name) ||
  containsSub (str "http") (lower name) ||
  tldBoundary (str ".com") (lower name) ||
  tldBoundary (str ".de") (lower name)

/-- The generic-token test of `looks_like_company`:
`len(name.split()) == 1 and name.isalpha() and len(name) <= 3`. -/
def generic_short_token (name : Str) : Bool :=
  (words name).length = 1 && py_isalpha name && name.length ≤ 3

/-- `looks_like_company` from the source: reject names matching a bad
pattern or consisting of one short alphabetic token, accept the rest. -/
def looks_like_company (name : Str) : Bool :=
  if bad_patterns_match name then false
  else if generic_short_token name then false
  else true

/-- One parsed row, the dict built by `parse_csv_block`. -/
structure Row where
  Company : Str
  Segment : Str
  CountryRegion : Str
  WhyRelevant : Str
  Website : Str
  Priority : Str
deriving DecidableEq

/-- `dedupe_and_filter` from the source.  The Python function mutates the
`seen` set in place and returns the clean batch; here the updated seen set
is returned alongside.  `seen` is modelled as a list of keys with `∈` for
the membership test. -/
def dedupe_and_filter : List Row → List Str → List Row × List Str
  | [], seen => ([], seen)
  | r :: rs, seen =>
    if normalize_name r.Company = [] ∨ normalize_name r.Company ∈ seen then
      dedupe_and_filter rs seen
    else if looks_like_company r.Company then
      match dedupe_and_filter rs (normalize_name r.Company :: seen) with
      | (c, s) => (r :: c, s)
    else dedupe_and_filter rs seen

/-- The normalized dedup keys of a list of rows. -/
def keysOf (rows : List Row) : List Str :=
  rows.map (fun r => normalize_name r.Company)

/-- Number of double-quote characters in a string. -/
def countQuotes (s : Str) : Nat :=
  (s.filter (fun c => c = '"')).length

/-- The splitter of `parse_csv_block`, i.e.
`re.split(delim + r"(?=(?:[^\"]*\"[^\"]*\")*[^\"]*$)", line)`: an occurrence
of `delim` is a split point iff the suffix after it contains an even number
of double quotes.  `qaSplitAux` returns the first field, the remaining
fields, and the number of double quotes of its argument. -/
def qaSplitAux (d : Char) : Str → Str × List Str × Nat
  | [] => ([], [], 0)
  | c :: rest =>
    match qaSplitAux d rest with
    | (f, fs, q) =>
      if c = d ∧ q % 2 = 0 then ([], f :: fs, q)
      else if c = '"' then ('"' :: f, fs, q + 1)
      else (c :: f, fs, q)

/-- The fields produced by the quote-counting split of `parse_csv_block`. -/
def qaSplit (d : Char) (s : Str) : List Str :=
  match qaSplitAux d s with
  | (f, fs, _) => f :: fs

/-- The splitting rule in the words of the spec: scan left to right
tracking whether the position is inside double quotes; a delimiter outside
quotes is a split point, one inside quotes is not. -/
def specSplitAux (d : Char) : Bool → Str → Str × List Str
  | _, [] => ([], [])
  | inq, c :: rest =>
    if c = d ∧ inq = false then
      match specSplitAux d false rest with
      | (f, fs) => ([], f :: fs)
    else
      match specSplitAux d (if c = '"' then !inq else inq) rest with
      | (f, fs) => (c :: f, fs)

/-- The fields of the spec's quote-aware split, starting outside quotes. -/
def specSplit (d : Char) (s : Str) : List Str :=
  match specSplitAux d false s with
  | (f, fs) => f :: fs

/-- Python `text.splitlines()` (modelled for `\n`-separated text): split on
newlines, with no empty trailing line for text ending in a newline. -/
def splitlines (s : Str) : List Str :=
  if s = [] then []
  else
    let parts := s.foldr
      (fun c acc =>
        match acc with
        | [] => if c = '\n' then [[], []] else [[c]]
        | f :: fs => if c = '\n' then [] :: f :: fs else (c :: f) :: fs)
      [[]]
    if s.getLast? = some '\n' then parts.dropLast else parts

/-- The fixed field count of `parse_csv_block` (`expected_cols=6`). -/
def expected_cols : Nat := 6

/-- The per-line step of `parse_csv_block`: skip blank lines; split on
commas (quote-counting rule), retrying with semicolons when fewer than six
fields result; with at least six fields, build the row from the first six
fields, whitespace-stripped and then quote-stripped, else drop the line. -/
def parseLine (line : Str) : Option Row :=
  if stripWs line = [] then none
  else
    let partsA := (qaSplit ',' line).map stripWs
    let parts := if partsA.length < expected_cols
                 then (qaSplit ';' line).map stripWs else partsA
    if expected_cols ≤ parts.length then
      some {
        Company := stripQuotes (parts.getD 0 []),
        Segment := stripQuotes (parts.getD 1 []),
        CountryRegion := stripQuotes (parts.getD 2 []),
        WhyRelevant := stripQuotes (parts.getD 3 []),
        Website := stripQuotes (parts.getD 4 []),
        Priority := stripQuotes (parts.getD 5 []) }
    else none

/-- `parse_csv_block` from the source. -/
def parse_csv_block (text : Str) : List Row :=
  (splitlines text).filterMap parseLine

/-- `TARGET_COUNT` from the source. -/
def TARGET_COUNT : Nat := 1000

/-- `MAX_CALLS` from the source (the safety cap on external calls). -/
def MAX_CALLS : Nat := 40

/-- `BATCH_SIZE` from the source (companies requested per call). -/
def BATCH_SIZE : Nat := 40

/-- `SEED_SEGMENTS` from the source: ten (title, description) pairs. -/
def SEED_SEGMENTS : List (String × String) := [
  ("Hersteller pflanzlicher Fleischalternativen",
   "Burger, Nuggets, Würstchen, Hack, Schnitzel; etablierte Marken & Private Label"),
  ("Protein- & Functional-Food-Hersteller",
   "Sportnahrung, Shakes, Riegel, Complete Meals, RTD-Proteindrinks"),
  ("Hersteller von Molkereialternativen",
   "Milchalternativen, Joghurts, Käsealternativen, Eis"),
  ("Hersteller von Snacks und Backwaren",
   "Chips, Kekse, Riegel, Müsli/Cereals, Backwaren mit Protein"),
  ("Tiernahrungshersteller (Pet Food)",
   "Hunde-/Katzenfutter, Premium & Spezialfutter"),
  ("Lohnhersteller & Co-Packer Food/Drinks",
   "Produzieren im Auftrag – gut für schnelle Skalierung"),
  ("Hersteller von Fertiggerichten & Convenience",
   "Bowls, Suppen, Saucen, Tiefkühlkost"),
  ("B2B-Zutatenhändler / Distributoren",
   "Multiplikatoren für Markteintritt; EU-weit und global"),
  ("Hersteller medizinischer / seniorengerechter Ernährung",
   "Klinik-/Seniorenernährung, proteinangereichert"),
  ("Marken mit Verpackungsbedarf (Cross-Sell Packaging)",
   "Lebensmittel-/Getränkemarken, die auch Zutaten einsetzen könnten")]

/-- `generate_batch` from the source, relative to the raw `text` the
external call produced: empty text gives an empty batch, otherwise the
text is parsed.  The prompt built from the segment and the avoid list only
influences the opaque external service, which the loop model abstracts as
an oracle indexed by the call counter. -/
def generate_batch (text : Str) : List Row :=
  if text = [] then [] else parse_csv_block text

/-- The mutable state of the collection loop in `main`: the accumulated
`results`, the `seen` key set, the call counter and the rotating segment
index. -/
structure LoopState where
  results : List Row
  seen : List Str
  call_count : Nat
  seg_index : Nat
deriving DecidableEq

/-- The initial loop state of `main`. -/
def initState : LoopState := ⟨[], [], 0, 0⟩

/-- The segment an iteration starting from `st` uses:
`SEED_SEGMENTS[seg_index % len(SEED_SEGMENTS)]`. -/
def currentSegment (st : LoopState) : Option (String × String) :=
  SEED_SEGMENTS.get? (st.seg_index % SEED_SEGMENTS.length)

/-- The `while` guard of `main`:
`len(results) < TARGET_COUNT and call_count < MAX_CALLS`. -/
def loopGuard (st : LoopState) : Prop :=
  st.results.length < TARGET_COUNT ∧ st.call_count < MAX_CALLS

instance (st : LoopState) : Decidable (loopGuard st) := by
  unfold loopGuard; infer_instance

/-- One iteration of the `while` loop in `main`.  `oracle n` is the raw
text returned by the n-th external call (`call_count` numbering).  In the
source the segment index is advanced before the call and the call counter
right after it, on every path; an empty batch only warns and sleeps, an
all-duplicate batch only logs, and a non-empty clean batch is appended. -/
def loop_step (oracle : Nat → Str) (st : LoopState) : LoopState :=
  if generate_batch (oracle st.call_count) = [] then
    { st with call_count := st.call_count + 1, seg_index := st.seg_index + 1 }
  else
    match dedupe_and_filter (generate_batch (oracle st.call_count)) st.seen with
    | (clean, seen2) =>
      if clean = [] then
        { st with seen := seen2,
                  call_count := st.call_count + 1, seg_index := st.seg_index + 1 }
      else
        { results := st.results ++ clean, seen := seen2,
          call_count := st.call_count + 1, seg_index := st.seg_index + 1 }

/-- The `while` loop of `main`, run for at most `fuel` iterations.  Since
every iteration increments `call_count` and the guard requires
`call_count < MAX_CALLS`, fuel `MAX_CALLS` is exact (proved below). -/
def runLoop (oracle : Nat → Str) : Nat → LoopState → LoopState
  | 0, st => st
  | fuel + 1, st =>
    if loopGuard st then runLoop oracle fuel (loop_step oracle st) else st

/-- The loop state at which `main`'s while loop exits. -/
def collect (oracle : Nat → Str) : LoopState :=
  runLoop oracle MAX_CALLS initState

/-- The final `results` of `main` after the trim
`results = results[:TARGET_COUNT]`. -/
def main_results (oracle : Nat → Str) : List Row :=
  (collect oracle).results.take TARGET_COUNT

/-- The stubbed collaborator returning empty text on every call. -/
def emptyOracle : Nat → Str := fun _ => []

/-- Membership of a Priority field in the `enum{A,B,C}` of the data model. -/
def isTier (p : Str) : Bool := p = str "A" || p = str "B" || p = str "C"

/-- A row whose non-name fields are fixed, for concrete batches. -/
def sampleRow (c : String) : Row :=
  ⟨str c, str "Seg", str "EU", str "fit", str "", str "A"⟩

/-- A collaborator answering every call with one well-formed row whose
Priority field is `Z`. -/
def oracleZ : Nat → Str := fun _ => str "Acme Corp,Seg,EU,Good,,Z"

/-- A collaborator answering every call with one well-formed row whose
Priority field is `A`. -/
def oracleA : Nat → Str := fun _ => str "Acme Foods,Seg,EU,Good,,A"

/-- The loop invariant tying `seen` to `results`: the seen set is exactly
the set of normalized name keys of the accumulated records, and those keys
are pairwise distinct. -/
def SeenInv (st : LoopState) : Prop :=
  (∀ k, k ∈ st.seen ↔ k ∈ keysOf st.results) ∧ (keysOf st.results).Nodup

example : normalize_name (str "  Acme   GmbH ") = str "acme gmbh" := by decide
example : collect emptyOracle = ⟨[], [], 40, 40⟩ := by decide
example : qaSplit ',' (str "a,\"b,c\",d") = [str "a", str "\"b,c\"", str "d"] := by decide
example : specSplit ',' (str "a,\"b,c\",d") = [str "a", str "\"b,c\"", str "d"] := by decide
example : qaSplit ',' (str "\"a,b\",c\"") = [str "\"a", str "b\",c\""] := by decide
example : specSplit ',' (str "\"a,b\",c\"") = [str "\"a,b\"", str "c\""] := by decide
example : parseLine (str "Acme Corp,Seg,EU,Good,,Z") =
    some ⟨str "Acme Corp", str "Seg", str "EU", str "Good", str "", str "Z"⟩ := by decide
example : parseLine (str "a,b,c") = none := by decide
example : parseLine (str "a;b;c;d;e;f") =
    some ⟨str "a", str "b", str "c", str "d", str "e", str "f"⟩ := by decide
example : parseLine (str "   ") = none := by decide
example : parse_csv_block (str "x1,a,b,c,d,A\n\nx2,a,b,c,d,B\n") =
    [⟨str "x1", str "a", str "b", str "c", str "d", str "A"⟩,
     ⟨str "x2", str "a", str "b", str "c", str "d", str "B"⟩] := by decide
example : looks_like_company (str "N/A") = false := by decide
example : looks_like_company (str "Keine Angabe") = false := by decide
example : looks_like_company (str "sample-co.com") = false := by decide
example : looks_like_company (str "abc") = false := by decide
example : looks_like_company (str "Acme GmbH") = true := by decide
example : looks_like_company (str " Sample X") = true := by decide
example : looks_like_company (str "Sample X") = false := by decide
example : looks_like_company (str "abc.def AG") = true := by decide
example : looks_like_company (str "foo.de") = false := by decide

theorem keysOf_nil : keysOf [] = [] := rfl

theorem keysOf_cons (r : Row) (rs : List Row) :
    keysOf (r :: rs) = normalize_name r.Company :: keysOf rs := rfl

theorem keysOf_append (a b : List Row) :
    keysOf (a ++ b) = keysOf a ++ keysOf b := by
  simp [keysOf]

/-- The updated seen set of `dedupe_and_filter` holds exactly the keys it
held before plus the keys of the accepted rows. -/
theorem dedupe_seen_mem (rows : List Row) : ∀ (seen : List Str) (k : Str),
    k ∈ (dedupe_and_filter rows seen).2 ↔
      k ∈ keysOf (dedupe_and_filter rows seen).1 ∨ k ∈ seen := by
  induction rows with
  | nil => intro seen k; simp [dedupe_and_filter, keysOf]
  | cons r rs ih =>
    intro seen k
    by_cases h1 : normalize_name r.Company = [] ∨ normalize_name r.Company ∈ seen
    · simp only [dedupe_and_filter, if_pos h1]
      exact ih seen k
    · by_cases h2 : looks_like_company r.Company = true
      · simp only [dedupe_and_filter, if_neg h1, if_pos h2]
        rcases hrec : dedupe_and_filter rs (normalize_name r.Company :: seen)
          with ⟨c, s⟩
        have hmem := ih (normalize_name r.Company :: seen) k
        rw [hrec] at hmem
        simp only [keysOf_cons, List.mem_cons]
        simp only [List.mem_cons] at hmem
        tauto
      · simp only [dedupe_and_filter, if_neg h1, if_neg h2]
        exact ih seen k

/-- Keys of rows accepted by `dedupe_and_filter` are not previously seen
and are pairwise distinct. -/
theorem dedupe_keys_fresh (rows : List Row) : ∀ (seen : List Str),
    (∀ k ∈ keysOf (dedupe_and_filter rows seen).1, k ∉ seen) ∧
      (keysOf (dedupe_and_filter rows seen).1).Nodup := by
  induction rows with
  | nil => intro seen; simp [dedupe_and_filter, keysOf]
  | cons r rs ih =>
    intro seen
    by_cases h1 : normalize_name r.Company = [] ∨ normalize_name r.Company ∈ seen
    · simp only [dedupe_and_filter, if_pos h1]
      exact ih seen
    · by_cases h2 : looks_like_company r.Company = true
      · simp only [dedupe_and_filter, if_neg h1, if_pos h2]
        rcases hrec : dedupe_and_filter rs (normalize_name r.Company :: seen)
          with ⟨c, s⟩
        have hfresh := (ih (normalize_name r.Company :: seen)).1
        have hnd := (ih (normalize_name r.Company :: seen)).2
        rw [hrec] at hfresh hnd
        push_neg at h1
        constructor
        · intro k hk
          simp only [keysOf_cons, List.mem_cons] at hk
          rcases hk with hk | hk
          · exact hk ▸ h1.2
          · have hkk := hfresh k hk
            simp only [List.mem_cons] at hkk
            tauto
        · simp only [keysOf_cons, List.nodup_cons]
          refine ⟨fun hmem => ?_, hnd⟩
          have hkk := hfresh _ hmem
          simp at hkk
      · simp only [dedupe_and_filter, if_neg h1, if_neg h2]
        exact ih seen

/-- Rows accepted by `dedupe_and_filter` come from the input batch. -/
theorem dedupe_mem (rows : List Row) : ∀ (seen : List Str) (r : Row),
    r ∈ (dedupe_and_filter rows seen).1 → r ∈ rows := by
  induction rows with
  | nil => intro seen r h; simp [dedupe_and_filter] at h
  | cons r0 rs ih =>
    intro seen r h
    by_cases h1 : normalize_name r0.Company = [] ∨ normalize_name r0.Company ∈ seen
    · simp only [dedupe_and_filter, if_pos h1] at h
      exact List.mem_cons_of_mem _ (ih seen r h)
    · by_cases h2 : looks_like_company r0.Company = true
      · rcases hrec : dedupe_and_filter rs (normalize_name r0.Company :: seen)
          with ⟨c, s⟩
        simp only [dedupe_and_filter, if_neg h1, if_pos h2, hrec] at h
        simp only [List.mem_cons] at h
        rcases h with h | h
        · exact h ▸ List.mem_cons_self r0 rs
        · exact List.mem_cons_of_mem _ (ih _ r (by rw [hrec]; exact h))
      · simp only [dedupe_and_filter, if_neg h1, if_neg h2] at h
        exact List.mem_cons_of_mem _ (ih seen r h)

/-- Rows accepted by `dedupe_and_filter` pass `looks_like_company`. -/
theorem dedupe_looks (rows : List Row) : ∀ (seen : List Str) (r : Row),
    r ∈ (dedupe_and_filter rows seen).1 → looks_like_company r.Company = true := by
  induction rows with
  | nil => intro seen r h; simp [dedupe_and_filter] at h
  | cons r0 rs ih =>
    intro seen r h
    by_cases h1 : normalize_name r0.Company = [] ∨ normalize_name r0.Company ∈ seen
    · simp only [dedupe_and_filter, if_pos h1] at h
      exact ih seen r h
    · by_cases h2 : looks_like_company r0.Company = true
      · rcases hrec : dedupe_and_filter rs (normalize_name r0.Company :: seen)
          with ⟨c, s⟩
        simp only [dedupe_and_filter, if_neg h1, if_pos h2, hrec] at h
        simp only [List.mem_cons] at h
        rcases h with h | h
        · exact h ▸ h2
        · exact ih _ r (by rw [hrec]; exact h)
      · simp only [dedupe_and_filter, if_neg h1, if_neg h2] at h
        exact ih seen r h

/-- A seen set with distinct keys stays duplicate-free through
`dedupe_and_filter`. -/
theorem dedupe_seen_nodup (rows : List Row) : ∀ (seen : List Str),
    seen.Nodup → (dedupe_and_filter rows seen).2.Nodup := by
  induction rows with
  | nil => intro seen h; simpa [dedupe_and_filter] using h
  | cons r0 rs ih =>
    intro seen h
    by_cases h1 : normalize_name r0.Company = [] ∨ normalize_name r0.Company ∈ seen
    · simp only [dedupe_and_filter, if_pos h1]
      exact ih seen h
    · by_cases h2 : looks_like_company r0.Company = true
      · rcases hrec : dedupe_and_filter rs (normalize_name r0.Company :: seen)
          with ⟨c, s⟩
        simp only [dedupe_and_filter, if_neg h1, if_pos h2, hrec]
        have hres : (dedupe_and_filter rs (normalize_name r0.Company :: seen)).2.Nodup := by
          refine ih _ ?_
          push_neg at h1
          exact List.nodup_cons.mpr ⟨h1.2, h⟩
        rw [hrec] at hres
        exact hres
      · simp only [dedupe_and_filter, if_neg h1, if_neg h2]
        exact ih seen h

theorem countQuotes_nil : countQuotes [] = 0 := rfl

theorem countQuotes_cons (c : Char) (s : Str) :
    countQuotes (c :: s) = (if c = '"' then 1 else 0) + countQuotes s := by
  by_cases h : c = '"'
  · simp [countQuotes, List.filter_cons, h]
    omega
  · simp [countQuotes, List.filter_cons, h]

/-- The quote count returned by `qaSplitAux` is the quote count of its
input (for a delimiter other than the double quote). -/
theorem qaSplitAux_snd (d : Char) (hd : d ≠ '"') : ∀ s : Str,
    (qaSplitAux d s).2.2 = countQuotes s := by
  intro s
  induction s with
  | nil => rfl
  | cons c rest ih =>
    rcases hrec : qaSplitAux d rest with ⟨f, fs, q⟩
    rw [hrec] at ih
    have ihq : q = countQuotes rest := ih
    simp only [qaSplitAux, hrec]
    split
    · rename_i hsplit
      have hc : c ≠ '"' := by
        rintro rfl
        exact hd hsplit.1.symm
      simp [countQuotes_cons, hc, ihq]
    · split
      · rename_i hq
        simp [countQuotes_cons, hq, ihq, Nat.add_comm]
      · rename_i h1 hq
        simp [countQuotes_cons, hq, ihq]

/-- On input whose total quote parity matches the tracked in-quote state,
the quote-counting split of the source coincides with the spec's
in-quote-tracking split. -/
theorem qaSplitAux_eq_spec (d : Char) (hd : d ≠ '"') : ∀ (s : Str) (inq : Bool),
    (countQuotes s + (if inq then 1 else 0)) % 2 = 0 →
    qaSplitAux d s =
      ((specSplitAux d inq s).1, (specSplitAux d inq s).2, countQuotes s) := by
  intro s
  induction s with
  | nil =>
    intro inq _
    cases inq <;> rfl
  | cons c rest ih =>
    intro inq hpar
    rw [countQuotes_cons] at hpar
    by_cases hc : c = '"'
    · have hdq : ¬(('"' : Char) = d) := fun h => hd h.symm
      have hpar2 : (countQuotes rest + (if !inq then 1 else 0)) % 2 = 0 := by
        cases inq <;> simp [hc] at hpar ⊢ <;> omega
      have hih := ih (!inq) hpar2
      rcases hs : specSplitAux d (!inq) rest with ⟨f, fs⟩
      rw [hs] at hih
      simp only [qaSplitAux, specSplitAux]
      simp [hc, hdq, hih, hs, countQuotes_cons, Prod.mk.injEq]
      omega
    · by_cases hcd : c = d
      · have hdq : ¬(d = '"') := hcd ▸ hc
        cases inq with
        | true =>
          have hodd : countQuotes rest % 2 = 1 := by
            simp [hc] at hpar
            omega
          have hih := ih true (by simp; omega)
          rcases hs : specSplitAux d true rest with ⟨f, fs⟩
          rw [hs] at hih
          simp only [qaSplitAux, specSplitAux]
          simp [hcd, hdq, hodd, hih, hs, countQuotes_cons, Prod.mk.injEq]
        | false =>
          have heven : countQuotes rest % 2 = 0 := by
            simp [hc] at hpar
            omega
          have hih := ih false (by simp; omega)
          rcases hs : specSplitAux d false rest with ⟨f, fs⟩
          rw [hs] at hih
          simp only [qaSplitAux, specSplitAux]
          simp [hcd, hdq, heven, hih, hs, countQuotes_cons, Prod.mk.injEq]
      · have hih := ih inq (by cases inq <;> simp [hc] at hpar ⊢ <;> omega)
        rcases hs : specSplitAux d inq rest with ⟨f, fs⟩
        rw [hs] at hih
        simp only [qaSplitAux, specSplitAux]
        simp [hc, hcd, hih, hs, countQuotes_cons, Prod.mk.injEq]

/-- On a line with an even number of double quotes, the splitter of
`parse_csv_block` agrees with the spec's quote-aware rule. -/
theorem qaSplit_eq_spec (d : Char) (hd : d ≠ '"') (s : Str)
    (h : countQuotes s % 2 = 0) : qaSplit d s = specSplit d s := by
  have hx := qaSplitAux_eq_spec d hd s false (by simpa using h)
  rcases hs : specSplitAux d false s with ⟨f, fs⟩
  rw [hs] at hx
  simp only [qaSplit, specSplit, hx, hs]

/-- Every iteration of the loop increments the call counter by one. -/
theorem loop_step_call (oracle : Nat → Str) (st : LoopState) :
    (loop_step oracle st).call_count = st.call_count + 1 := by
  unfold loop_step
  split
  · rfl
  · rcases hrec : dedupe_and_filter (generate_batch (oracle st.call_count)) st.seen
      with ⟨c, s⟩
    simp only [hrec]
    split <;> rfl

/-- Every iteration of the loop advances the segment index by one. -/
theorem loop_step_seg (oracle : Nat → Str) (st : LoopState) :
    (loop_step oracle st).seg_index = st.seg_index + 1 := by
  unfold loop_step
  split
  · rfl
  · rcases hrec : dedupe_and_filter (generate_batch (oracle st.call_count)) st.seen
      with ⟨c, s⟩
    simp only [hrec]
    split <;> rfl

/-- The call counter grows by at most the fuel spent. -/
theorem runLoop_call_le (oracle : Nat → Str) : ∀ (fuel : Nat) (st : LoopState),
    (runLoop oracle fuel st).call_count ≤ st.call_count + fuel := by
  intro fuel
  induction fuel with
  | zero => intro st; simp [runLoop]
  | succ n ih =>
    intro st
    simp only [runLoop]
    split
    · calc (runLoop oracle n (loop_step oracle st)).call_count
          ≤ (loop_step oracle st).call_count + n := ih _
        _ = st.call_count + (n + 1) := by rw [loop_step_call]; omega
    · omega

/-- A state failing the while guard is a fixed point of the loop. -/
theorem runLoop_guard_false (oracle : Nat → Str) (fuel : Nat) {st : LoopState}
    (h : ¬ loopGuard st) : runLoop oracle fuel st = st := by
  cases fuel <;> simp [runLoop, h]

/-- Any fuel of at least `MAX_CALLS - call_count` produces the same final
state: the loop genuinely stops at the guard, the fuel is only a bound. -/
theorem runLoop_stable (oracle : Nat → Str) : ∀ (f1 f2 : Nat) (st : LoopState),
    MAX_CALLS ≤ st.call_count + f1 → MAX_CALLS ≤ st.call_count + f2 →
    runLoop oracle f1 st = runLoop oracle f2 st := by
  intro f1
  induction f1 with
  | zero =>
    intro f2 st h1 _
    have hg : ¬ loopGuard st := by
      unfold loopGuard; omega
    rw [runLoop_guard_false oracle f2 hg]
    rfl
  | succ n ih =>
    intro f2 st h1 h2
    by_cases hg : loopGuard st
    · have hcc : st.call_count < MAX_CALLS := hg.2
      cases f2 with
      | zero => omega
      | succ m =>
        simp only [runLoop, if_pos hg]
        exact ih m (loop_step oracle st)
          (by rw [loop_step_call]; omega) (by rw [loop_step_call]; omega)
    · rw [runLoop_guard_false oracle _ hg, runLoop_guard_false oracle _ hg]

/-- One loop iteration preserves the seen/results invariant. -/
theorem loop_step_inv (oracle : Nat → Str) (st : LoopState)
    (h : SeenInv st) : SeenInv (loop_step oracle st) := by
  unfold SeenInv at h ⊢
  unfold loop_step
  split
  · exact h
  · rcases hrec : dedupe_and_filter (generate_batch (oracle st.call_count)) st.seen
      with ⟨c, s⟩
    simp only [hrec]
    have hmem : ∀ k, k ∈ s ↔ k ∈ keysOf c ∨ k ∈ st.seen := by
      intro k
      have hd := dedupe_seen_mem (generate_batch (oracle st.call_count)) st.seen k
      rw [hrec] at hd
      exact hd
    have hfresh : ∀ k ∈ keysOf c, k ∉ st.seen := by
      intro k hk
      have hd := (dedupe_keys_fresh (generate_batch (oracle st.call_count)) st.seen).1
      rw [hrec] at hd
      exact hd k hk
    have hnodc : (keysOf c).Nodup := by
      have hd := (dedupe_keys_fresh (generate_batch (oracle st.call_count)) st.seen).2
      rw [hrec] at hd
      exact hd
    by_cases hc : c = []
    · subst hc
      simp only [if_pos rfl]
      refine ⟨fun k => ?_, h.2⟩
      have := hmem k
      simp only [keysOf_nil, List.not_mem_nil, false_or] at this
      exact this.trans (h.1 k)
    · simp only [if_neg hc]
      constructor
      · intro k
        rw [hmem k, keysOf_append, List.mem_append, h.1 k]
        tauto
      · rw [keysOf_append]
        rw [List.nodup_append]
        refine ⟨h.2, hnodc, ?_⟩
        intro k hk hk2
        exact hfresh k hk2 ((h.1 k).mpr hk)

/-- The loop preserves the seen/results invariant for any fuel. -/
theorem runLoop_inv (oracle : Nat → Str) : ∀ (fuel : Nat) (st : LoopState),
    SeenInv st → SeenInv (runLoop oracle fuel st) := by
  intro fuel
  induction fuel with
  | zero => intro st h; simpa [runLoop] using h
  | succ n ih =>
    intro st h
    simp only [runLoop]
    split
    · exact ih _ (loop_step_inv oracle st h)
    · exact h

/-- The invariant holds at the initial loop state. -/
theorem initState_inv : SeenInv initState := by
  unfold SeenInv
  constructor
  · intro k; simp [initState, keysOf]
  · simp [initState, keysOf]

/-- If every batch the collaborator ever produces satisfies a row predicate,
so do all accumulated results. -/
theorem runLoop_all (oracle : Nat → Str) (p : Row → Bool)
    (hb : ∀ n, (generate_batch (oracle n)).all p = true) :
    ∀ (fuel : Nat) (st : LoopState),
      st.results.all p = true → (runLoop oracle fuel st).results.all p = true := by
  intro fuel
  induction fuel with
  | zero => intro st h; simpa [runLoop] using h
  | succ n ih =>
    intro st h
    simp only [runLoop]
    split
    · refine ih _ ?_
      unfold loop_step
      split
      · exact h
      · rcases hrec : dedupe_and_filter (generate_batch (oracle st.call_count)) st.seen
          with ⟨c, s⟩
        simp only [hrec]
        have hcall : ∀ r ∈ c, p r = true := by
          intro r hr
          have hmm := dedupe_mem (generate_batch (oracle st.call_count)) st.seen r
          rw [hrec] at hmm
          exact List.all_eq_true.mp (hb st.call_count) r (hmm hr)
        by_cases hc : c = []
        · simp only [if_pos hc]; exact h
        · simp only [if_neg hc]
          rw [List.all_eq_true] at h ⊢
          intro r hr
          rcases List.mem_append.mp hr with hr | hr
          · exact h r hr
          · exact hcall r hr
    · exact h

/-- Taking a prefix of the results takes a prefix of the keys. -/
theorem keysOf_take (rows : List Row) (n : Nat) :
    keysOf (rows.take n) = (keysOf rows).take n := by
  simp [keysOf, List.map_take]

/-- Claim C1: in the final `ResultCollection` (`results` after the trim),
no two records have names normalizing to the same key: the key list is
duplicate-free, for every behaviour of the external collaborator. -/
theorem claim_C1_final_keys_nodup (oracle : Nat → Str) :
    (keysOf (main_results oracle)).Nodup := by
  have hinv := runLoop_inv oracle MAX_CALLS initState initState_inv
  have hnd : (keysOf (collect oracle).results).Nodup := hinv.2
  unfold main_results
  rw [keysOf_take]
  exact List.Nodup.sublist (List.take_sublist _ _) hnd

/-- Claim C2: after the final trim `results[:TARGET_COUNT]`, the result
collection never exceeds the configured target, for every sequence of
batches the external collaborator may return. -/
theorem claim_C2_trim_le_target (oracle : Nat → Str) :
    (main_results oracle).length ≤ TARGET_COUNT := by
  unfold main_results
  exact List.length_take_le _ _

/-- Claim C3: the loop makes at most `MAX_CALLS` external calls for every
collaborator; giving it any fuel beyond `MAX_CALLS` changes nothing (the
loop genuinely stops at the guard); and with a collaborator stubbed to
return empty text on every call it stops exactly at the call cap with an
empty result collection (the model is a total function, so no exception is
raised). -/
theorem claim_C3_call_cap_termination :
    (∀ oracle : Nat → Str, (collect oracle).call_count ≤ MAX_CALLS) ∧
    (∀ (oracle : Nat → Str) (extra : Nat),
      runLoop oracle (MAX_CALLS + extra) initState = collect oracle) ∧
    (collect emptyOracle).call_count = MAX_CALLS ∧
    (collect emptyOracle).results = [] := by
  refine ⟨?_, ?_, by decide, by decide⟩
  · intro oracle
    have hle := runLoop_call_le oracle MAX_CALLS initState
    calc (collect oracle).call_count ≤ initState.call_count + MAX_CALLS := hle
      _ = MAX_CALLS := by rfl
  · intro oracle extra
    refine runLoop_stable oracle _ _ initState ?_ ?_
    · show MAX_CALLS ≤ 0 + (MAX_CALLS + extra)
      omega
    · show MAX_CALLS ≤ 0 + MAX_CALLS
      omega

/-- Claim C4, counterexample: two candidates of one batch normalize to the
same key, yet the accepted one is the LATER occurrence, because the first
fails the pattern filter (leading whitespace defeats the `^sample` anchor)
without putting the key into the seen set.  This refutes "accepts at most
the first occurrence (in input order) … the later duplicate is rejected"
and "adds that key to SeenSet exactly once" (both duplicates can also be
rejected, adding the key zero times). -/
theorem claim_C4_first_occurrence_cex :
    normalize_name (sampleRow "Sample X").Company
        = normalize_name (sampleRow " Sample X").Company ∧
    (dedupe_and_filter [sampleRow "Sample X", sampleRow " Sample X"] []).1
        = [sampleRow " Sample X"] ∧
    sampleRow " Sample X" ≠ sampleRow "Sample X" := by decide

/-- Claim C4, amended: for candidates of one batch normalizing to the same
key, at most ONE is accepted (the first that passes the validity filter,
not necessarily the first occurrence), the key enters the seen set at most
once (the seen set stays duplicate-free), and every accepted key was not
seen before the batch. -/
theorem claim_C4_at_most_one_per_key (rows : List Row) (seen : List Str)
    (h : seen.Nodup) :
    (keysOf (dedupe_and_filter rows seen).1).Nodup ∧
    (∀ k ∈ keysOf (dedupe_and_filter rows seen).1, k ∉ seen) ∧
    (dedupe_and_filter rows seen).2.Nodup :=
  ⟨(dedupe_keys_fresh rows seen).2, (dedupe_keys_fresh rows seen).1,
    dedupe_seen_nodup rows seen h⟩

/-- Claim C4, witness: the amended statement applied to a concrete batch
with a literal duplicate name and an empty seen set. -/
theorem claim_C4_witness :
    ([] : List Str).Nodup ∧
    ((keysOf (dedupe_and_filter [sampleRow "Acme GmbH", sampleRow "Acme GmbH"] []).1).Nodup ∧
     (∀ k ∈ keysOf (dedupe_and_filter [sampleRow "Acme GmbH", sampleRow "Acme GmbH"] []).1,
        k ∉ ([] : List Str)) ∧
     (dedupe_and_filter [sampleRow "Acme GmbH", sampleRow "Acme GmbH"] []).2.Nodup) :=
  ⟨by decide, claim_C4_at_most_one_per_key [sampleRow "Acme GmbH", sampleRow "Acme GmbH"] []
      (by decide)⟩

/-- Claim C5: a line with fewer than six fields under the comma split and
fewer than six under the semicolon retry yields no record, and a blank
line yields no record. -/
theorem claim_C5_short_lines_dropped :
    (∀ line : Str, (qaSplit ',' line).length < expected_cols →
      (qaSplit ';' line).length < expected_cols → parseLine line = none) ∧
    (∀ line : Str, stripWs line = [] → parseLine line = none) := by
  constructor
  · intro line h1 h2
    by_cases hb : stripWs line = []
    · simp [parseLine, hb]
    · have l1 : ((qaSplit ',' line).map stripWs).length < expected_cols := by
        simpa using h1
      have l2 : ((qaSplit ';' line).map stripWs).length < expected_cols := by
        simpa using h2
      simp only [parseLine, if_neg hb, if_pos l1]
      rw [if_neg (Nat.not_le.mpr l2)]
  · intro line h
    simp [parseLine, h]

/-- Claim C5, witness: a concrete two-field line is dropped. -/
theorem claim_C5_witness :
    (qaSplit ',' (str "a;b")).length < expected_cols ∧
    (qaSplit ';' (str "a;b")).length < expected_cols ∧
    parseLine (str "a;b") = none :=
  ⟨by decide, by decide,
    claim_C5_short_lines_dropped.1 (str "a;b") (by decide) (by decide)⟩

/-- Claim C6: the four example names are rejected; any name matching one of
the fixed non-company patterns is rejected; any single short alphabetic
token is rejected; and every row accepted by the deduplicator passes
`looks_like_company` (so a rejected name never reaches the results). -/
theorem claim_C6_noncompany_rejected :
    (looks_like_company (str "N/A") = false ∧
     looks_like_company (str "Keine Angabe") = false ∧
     looks_like_company (str "sample-co.com") = false ∧
     looks_like_company (str "abc") = false) ∧
    (∀ name : Str, bad_patterns_match name = true → looks_like_company name = false) ∧
    (∀ name : Str, generic_short_token name = true → looks_like_company name = false) ∧
    (∀ (rows : List Row) (seen : List Str),
      ((dedupe_and_filter rows seen).1.all fun r => looks_like_company r.Company) = true) := by
  refine ⟨by decide, ?_, ?_, ?_⟩
  · intro name h
    simp [looks_like_company, h]
  · intro name h
    simp [looks_like_company, h]
  · intro rows seen
    rw [List.all_eq_true]
    intro r hr
    exact dedupe_looks rows seen r hr

/-- Claim C6, witness: the pattern clause applied at a name carrying a
top-level-domain suffix and the short-token clause at a two-letter word. -/
theorem claim_C6_witness :
    (bad_patterns_match (str "foo.com") = true ∧
      looks_like_company (str "foo.com") = false) ∧
    (generic_short_token (str "Ab") = true ∧
      looks_like_company (str "Ab") = false) :=
  ⟨⟨by decide, claim_C6_noncompany_rejected.2.1 (str "foo.com") (by decide)⟩,
   ⟨by decide, claim_C6_noncompany_rejected.2.2.1 (str "Ab") (by decide)⟩⟩

/-- Claim C7, counterexample: on the line `"a,b",c"` (odd number of double
quotes), the comma at index 2 lies inside the matching pair of quotes at
indices 0 and 4, yet the source's splitter separates exactly there: it
returns `["a` | `b",c"]`, while the spec's inside-quotes tracking rule
returns `["a,b"` | `c"]`.  The quote-counting lookahead is fooled by the
unmatched trailing quote. -/
theorem claim_C7_quoted_comma_cex :
    countQuotes (str "\"a,b\",c\"") % 2 = 1 ∧
    qaSplit ',' (str "\"a,b\",c\"") = [str "\"a", str "b\",c\""] ∧
    specSplit ',' (str "\"a,b\",c\"") = [str "\"a,b\"", str "c\""] ∧
    qaSplit ',' (str "\"a,b\",c\"") ≠ specSplit ',' (str "\"a,b\",c\"") := by decide

/-- Claim C7, amended: on every line with an EVEN number of double-quote
characters the source's comma split agrees with the spec's quote-aware
rule, so commas inside matching quotes are not split points there; and
surrounding quotes are stripped from accepted fields (a quoted company
name keeps its inner comma and loses its quotes). -/
theorem claim_C7_balanced_quotes_split (s : Str) (h : countQuotes s % 2 = 0) :
    qaSplit ',' s = specSplit ',' s ∧
    parseLine (str "\"Acme, Inc\",Seg,EU,fit,,A") =
      some ⟨str "Acme, Inc", str "Seg", str "EU", str "fit", str "", str "A"⟩ :=
  ⟨qaSplit_eq_spec ',' (by decide) s h, by decide⟩

/-- Claim C7, witness: the amended statement at a concrete balanced line. -/
theorem claim_C7_witness :
    countQuotes (str "a,\"b,c\",d") % 2 = 0 ∧
    qaSplit ',' (str "a,\"b,c\",d") = specSplit ',' (str "a,\"b,c\",d") :=
  ⟨by decide, (claim_C7_balanced_quotes_split (str "a,\"b,c\",d") (by decide)).1⟩

/-- Claim C8: when the call made from state `st` yields an empty batch, the
iteration leaves results and seen set unchanged, increments the call
counter, and advances the segment index by one, so the next iteration uses
the NEXT segment (indices differ modulo the ten-element segment list), not
the same one. -/
theorem claim_C8_empty_batch_advances (oracle : Nat → Str) (st : LoopState)
    (h : generate_batch (oracle st.call_count) = []) :
    (loop_step oracle st).seg_index = st.seg_index + 1 ∧
    (loop_step oracle st).call_count = st.call_count + 1 ∧
    (loop_step oracle st).results = st.results ∧
    (loop_step oracle st).seen = st.seen ∧
    currentSegment (loop_step oracle st)
        = SEED_SEGMENTS.get? ((st.seg_index + 1) % SEED_SEGMENTS.length) ∧
    (loop_step oracle st).seg_index % SEED_SEGMENTS.length
        ≠ st.seg_index % SEED_SEGMENTS.length := by
  have hstep : loop_step oracle st =
      { st with call_count := st.call_count + 1, seg_index := st.seg_index + 1 } := by
    unfold loop_step
    rw [if_pos h]
  rw [hstep]
  refine ⟨rfl, rfl, rfl, rfl, rfl, ?_⟩
  have hlen : SEED_SEGMENTS.length = 10 := rfl
  show (st.seg_index + 1) % SEED_SEGMENTS.length ≠ st.seg_index % SEED_SEGMENTS.length
  rw [hlen]
  omega

/-- Claim C8, witness: the statement at the initial state with the empty
collaborator. -/
theorem claim_C8_witness :
    generate_batch (emptyOracle initState.call_count) = [] ∧
    (loop_step emptyOracle initState).seg_index = initState.seg_index + 1 ∧
    (loop_step emptyOracle initState).call_count = initState.call_count + 1 :=
  ⟨rfl, (claim_C8_empty_batch_advances emptyOracle initState rfl).1,
    (claim_C8_empty_batch_advances emptyOracle initState rfl).2.1⟩

/-- Claim C9, counterexample: a collaborator answering with a well-formed
row whose sixth field is `Z` gets that row accepted into the final result
collection with PriorityTier `Z`, which is none of A, B, C — the program
never validates the tier. -/
theorem claim_C9_priority_unvalidated_cex :
    main_results oracleZ
        = [⟨str "Acme Corp", str "Seg", str "EU", str "Good", str "", str "Z"⟩] ∧
    isTier (str "Z") = false := by decide

/-- Claim C9, amended: the accepted records carry the sixth parsed field
verbatim, so the tier is A, B or C exactly when the external collaborator
supplies one of those: if every parsed batch has tiers in the enum, so
does every record of the final result collection. -/
theorem claim_C9_priority_preserved (oracle : Nat → Str)
    (h : ∀ n, ((generate_batch (oracle n)).all fun r => isTier r.Priority) = true) :
    ((main_results oracle).all fun r => isTier r.Priority) = true := by
  have hall := runLoop_all oracle (fun r => isTier r.Priority) h MAX_CALLS initState rfl
  unfold main_results
  rw [List.all_eq_true] at hall ⊢
  intro r hr
  exact hall r (List.take_subset _ _ hr)

/-- Claim C9, witness: with a collaborator always answering tier `A`, the
final results all carry tiers in the enum. -/
theorem claim_C9_witness :
    (∀ n, ((generate_batch (oracleA n)).all fun r => isTier r.Priority) = true) ∧
    ((main_results oracleA).all fun r => isTier r.Priority) = true :=
  ⟨fun _ => rfl, claim_C9_priority_preserved oracleA (fun _ => rfl)⟩

/-- Claim C10: at every point of the collection loop before the final trim
(after any number of iterations), the seen set holds exactly the
normalized name keys of the records currently accumulated — in particular
a candidate rejected by the pattern filter leaves no key behind. -/
theorem claim_C10_seen_matches_results (oracle : Nat → Str) (fuel : Nat) (k : Str) :
    k ∈ (runLoop oracle fuel initState).seen ↔
      k ∈ keysOf (runLoop oracle fuel initState).results :=
  (runLoop_inv oracle fuel initState initState_inv).1 k

end PeaProspects
